import Mathlib

/-!
Verification of `tools/newsweek_cache.py`: a shallow embedding of the
fetch → parse → upsert → prune → render pipeline of the newsweek-rss-cache
repository, with theorems settling the frozen claims about it.

Modelling conventions.
* Python strings are Lean `String`s; where the source manipulates the
  character sequence (`split`, `lower`, `startswith`, `replace`) we work on
  `String.data : List Char`, with `Char.toLower` for Python's `str.lower`
  (the source only ever lowercases to compare against ASCII literals).
* UTC instants (`datetime` values) are modelled as `Int` seconds since the
  epoch; `timedelta(days = n)` is `n * 86400`.  `isoformat` /
  `fromisoformat` round-trips are the identity under this model, and a
  `pubDate` that is absent, empty or unparseable is `none`.
* The JSON store, a Python `dict` keyed by guid, is an association list in
  insertion order: `dict` update keeps a key's position, a fresh insert
  appends, `del` removes - exactly the operations the source uses.
* Network calls are modelled by function arguments giving each fetch's
  outcome (`none` = the call raised and the `except` branch ran).
-/

/-- Retention window of the store, days (`RETENTION_DAYS = 7` in the source). -/
def RETENTION_DAYS : Int := 7

/-! ### guid normalization (`guid_clean`, source lines 97-105) -/

/-- Model of Python `raw.split(":", 2)[-1]` restricted to what the source
needs: everything after the second colon when there are at least two colons,
after the first when there is exactly one, the whole string otherwise.
`dropThroughColon` consumes through the first colon, `none` when there is
no colon at all. -/
def dropThroughColon : List Char → Option (List Char)
  | [] => none
  | c :: cs => if c = ':' then some cs else dropThroughColon cs

/-- Python `raw.split(":", 2)[-1]` (maxsplit 2, last piece). -/
def splitMax2Last (l : List Char) : List Char :=
  match dropThroughColon l with
  | none => l
  | some r1 =>
    match dropThroughColon r1 with
    | none => r1
    | some r2 => r2

/-- Python `raw.split(":")`: split on every colon, keeping empty pieces. -/
def splitColon : List Char → List (List Char)
  | [] => [[]]
  | c :: cs =>
    let r := splitColon cs
    if c = ':' then [] :: r
    else
      match r with
      | [] => [[c]]
      | p :: ps => (c :: p) :: ps

/-- Source `guid_clean(raw)`: empty stays empty; a string whose lowercasing
starts with `urn:uuid:` is split at most twice on `:` and the last piece
kept; a string containing a colon keeps the piece after the last colon;
anything else is returned as is. -/
def guid_clean (raw : String) : String :=
  if raw.data = [] then ""
  else if List.isPrefixOf "urn:uuid:".data (raw.data.map Char.toLower) then
    ⟨splitMax2Last raw.data⟩
  else if raw.data.contains ':' then ⟨(splitColon raw.data).getLastD []⟩
  else raw

/-! ### Data model -/

/-- An enclosure dict `{url, length, type}` as the renderer consults it with
`dict.get`: a field is `none` when the key is missing. The extractor and the
og:image resolver always populate all three keys (possibly with `""`). -/
structure Enc where
  url : Option String
  length : Option String
  type : Option String
deriving DecidableEq

/-- The dict returned by `extract_item_data` (source lines 146-154). -/
structure ItemData where
  guid : String
  title : String
  link : String
  description : String
  enclosure : Option Enc
  pubDate_raw : String
  pubDate : Option Int
deriving DecidableEq

/-- A stored record: the extracted fields plus `fetched_at`
(`store[g] = {**d, "fetched_at": fetched}`, source line 174). -/
structure ItemRec where
  guid : String
  title : String
  link : String
  description : String
  enclosure : Option Enc
  pubDate_raw : String
  pubDate : Option Int
  fetched_at : Int
deriving DecidableEq

/-- The store: a Python dict `guid → record` in insertion order.  Updating an
existing key keeps its position, a fresh key is appended, `del` removes. -/
abbrev Store := List (String × ItemRec)

/-- First binding of a key, as Python dict lookup (keys are unique in an
actual dict, so first = only). -/
def lookupRec : Store → String → Option ItemRec
  | [], _ => none
  | (g, r) :: t, k => if g = k then some r else lookupRec t k

/-- Replace the value at a key in place (position preserved). -/
def updateRec : Store → String → ItemRec → Store
  | [], _, _ => []
  | (g, r) :: t, k, v => if g = k then (g, v) :: t else (g, r) :: updateRec t k v

/-! ### Preview image resolver (`fetch_og_image`, source lines 31-53) -/

/-- Python truthiness of an optional string (`None` and `""` are falsy). -/
def truthyStr : Option String → Bool
  | none => false
  | some s => s != ""

/-- Python `s.strip()`: drop leading and trailing whitespace (the strings the
source strips are ASCII, where `Char.isWhitespace` matches Python). -/
def pyStrip (l : List Char) : List Char :=
  ((l.dropWhile Char.isWhitespace).reverse.dropWhile Char.isWhitespace).reverse

/-- MIME type guessed from the URL extension, query string ignored
(source lines 44-50): `og.lower().split("?", 1)[0]` is the lowercased text
before the first `?`; `.webp → image/webp`, `.png → image/png`,
anything else `image/jpeg`. -/
def guessType (og : String) : String :=
  let lower : List Char := (og.data.map Char.toLower).takeWhile (fun c => c ≠ '?')
  if List.isSuffixOf ".webp".data lower then "image/webp"
  else if List.isSuffixOf ".png".data lower then "image/png"
  else "image/jpeg"

/-- Source `fetch_og_image`.  The HTTP fetch and the `MetaGrabber` scan are
modelled by the argument: `ogMeta` is `p.meta.get("og:image")` of the fetched
page, and `none` also covers every raised exception (the `except` branch,
line 52) and a missing link.  A blank-after-strip value yields `none`; a
usable one yields a dict with non-empty `url`, empty `length` and a guessed
`type`. -/
def fetch_og_image (ogMeta : Option String) : Option Enc :=
  match ogMeta with
  | none => none
  | some m =>
    let og : String := ⟨pyStrip m.data⟩
    if og = "" then none
    else some { url := some og, length := some "", type := some (guessType og) }

/-! ### Item extraction (`extract_item_data`, source lines 116-154) -/

/-- The fields of one raw `item` element as the extractor reads them:
`title`/`link`/`description`/`guid`/`pubDate` text contents (`""` when the
child is absent or empty) and the native `enclosure` child's
`(url, length, type)` attributes (each defaulted to `""`). -/
structure RawItem where
  title : String
  link : String
  description : String
  enclosure : Option (String × String × String)
  guid : String
  pubDate_raw : String

/-- Source `extract_item_data`.  `og` gives each link's og:image meta value
(see `fetch_og_image`); `parsePub` models `parse_pubdate`, `none` for an
empty or unparseable date.  A usable og:image replaces the native enclosure
wholesale (lines 134-138); otherwise the native one (or its absence) is
kept. -/
def extract_item_data (it : RawItem) (og : String → Option String)
    (parsePub : String → Option Int) : ItemData :=
  let native : Option Enc :=
    it.enclosure.map (fun a => { url := some a.1, length := some a.2.1, type := some a.2.2 })
  let enclosure : Option Enc :=
    if it.link ≠ "" then
      match fetch_og_image (og it.link) with
      | some og_enc => if truthyStr og_enc.url then some og_enc else native
      | none => native
    else native
  { guid := guid_clean it.guid
    title := it.title
    link := it.link
    description := it.description
    enclosure := enclosure
    pubDate_raw := it.pubDate_raw
    pubDate := parsePub it.pubDate_raw }

/-! ### Retention and upsert (`prune_store` / `upsert_items`, lines 157-176) -/

/-- Source `prune_store`: delete every record whose `fetched_at` is strictly
before `now - RETENTION_DAYS` days; deleting the collected keys is dropping
them from the list, order otherwise preserved. -/
def prune_store (st : Store) (now : Int) : Store :=
  st.filter (fun gr => !decide (gr.2.fetched_at < now - RETENTION_DAYS * 86400))

/-- A fresh record, `{**d, "fetched_at": fetched}` (source line 174). -/
def mkStored (d : ItemData) (fetched : Int) : ItemRec :=
  { guid := d.guid
    title := d.title
    link := d.link
    description := d.description
    enclosure := d.enclosure
    pubDate_raw := d.pubDate_raw
    pubDate := d.pubDate
    fetched_at := fetched }

/-- Source line 176,
`store[g].update({k: d[k] for k in d if k not in ("guid", "fetched_at")})`:
every field of the incoming dict but `guid` overwrites; the stored `guid`
and `fetched_at` are untouched. -/
def updateFields (r : ItemRec) (d : ItemData) : ItemRec :=
  { r with
    title := d.title
    link := d.link
    description := d.description
    enclosure := d.enclosure
    pubDate_raw := d.pubDate_raw
    pubDate := d.pubDate }

/-- One iteration of the `upsert_items` loop (lines 169-176). -/
def upsertStep (st : Store) (d : ItemData) (fetched : Int) : Store :=
  if d.guid = "" then st
  else
    match lookupRec st d.guid with
    | none => st ++ [(d.guid, mkStored d fetched)]
    | some r => updateRec st d.guid (updateFields r d)

/-- Source `upsert_items`: `fetched = nowiso()` is taken once, before the
loop, and every iteration uses that same value. -/
def upsert_items (st : Store) (items : List ItemData) (fetched : Int) : Store :=
  items.foldl (fun s d => upsertStep s d fetched) st

/-! ### RSS rendering (`build_rss`, source lines 179-231) -/

/-- The CDATA sentinels of source line 207 and lines 227-228. -/
def PLACEHOLDER_START : List Char := "__CDATA_PLACEHOLDER_START__".data

/-- End sentinel (see `PLACEHOLDER_START`). -/
def PLACEHOLDER_END : List Char := "__CDATA_PLACEHOLDER_END__".data

/-- ElementTree text serialization (`xml.sax.saxutils`-style `_escape_cdata`):
`&`, `<` and `>` become entities.  ElementTree replaces `&` first, then `<`,
then `>`; since the replacements only introduce fresh `&`, that equals this
single character-wise pass. -/
def escape_cdata (l : List Char) : List Char :=
  l.flatMap (fun c =>
    if c = '&' then "&amp;".data
    else if c = '<' then "&lt;".data
    else if c = '>' then "&gt;".data
    else [c])

/-- Left-to-right non-overlapping replacement, fuelled for structural
recursion (the fuel, one unit per consumed character, is ample). -/
def replaceFuel (pat rep : List Char) : Nat → List Char → List Char
  | _, [] => []
  | 0, l => l
  | fuel + 1, c :: cs =>
    if List.isPrefixOf pat (c :: cs) then
      rep ++ replaceFuel pat rep fuel ((c :: cs).drop pat.length)
    else c :: replaceFuel pat rep fuel cs

/-- Python `s.replace(pat, rep)` for a non-empty pattern. -/
def pyReplace (l pat rep : List Char) : List Char :=
  if pat = [] then l else replaceFuel pat rep l.length l

/-- The text content of a rendered `description` element, or `none` when no
element is emitted (source lines 203-207 and 223-228): a non-empty
description is wrapped in the sentinels, entity-escaped by the serializer,
and the sentinels are then substituted with `<![CDATA[` and `]]]>` (the
close sequence the source writes on line 228). -/
def renderDescription (desc : String) : Option String :=
  if desc = "" then none
  else
    let placed := PLACEHOLDER_START ++ desc.data ++ PLACEHOLDER_END
    let serialized := escape_cdata placed
    some ⟨pyReplace (pyReplace serialized PLACEHOLDER_START "<![CDATA[".data)
      PLACEHOLDER_END "]]]>".data⟩

/-- The attribute list of a rendered `enclosure` element, or `none` when no
element is emitted (source lines 209-215): the element appears when the
record has an enclosure with truthy `url`, and carries, in order, each of the
`url`/`length`/`type` keys whose value is not `None` - empty strings
included. -/
def renderEnclosure (enc : Option Enc) : Option (List (String × String)) :=
  match enc with
  | none => none
  | some e =>
    if truthyStr e.url then
      some ([("url", e.url), ("length", e.length), ("type", e.type)].filterMap
        (fun kv => kv.2.map (fun v => (kv.1, v))))
    else none

/-- One rendered `item` element: each child is `none` when the source emits
no such child. -/
structure ItemXml where
  title : Option String
  link : Option String
  description : Option String
  enclosure : Option (List (String × String))
  pubDate : Option String
  guid : Option String
deriving DecidableEq

/-- The `item` children emitted for one record (source lines 197-221):
`title`, `link`, `pubDate` (the raw received string) and `guid` only when
truthy, plus the description text and enclosure attributes above. -/
def renderItem (r : ItemRec) : ItemXml :=
  { title := if r.title = "" then none else some r.title
    link := if r.link = "" then none else some r.link
    description := renderDescription r.description
    enclosure := renderEnclosure r.enclosure
    pubDate := if r.pubDate_raw = "" then none else some r.pubDate_raw
    guid := if r.guid = "" then none else some r.guid }

/-- Source `build_rss.sort_key` (lines 187-194): the canonical `pubDate`
when present (and parseable - `none` also stands for a stored value
`fromisoformat` rejects, which this pipeline never writes), else
`fetched_at`. -/
def sort_key (r : ItemRec) : Int :=
  match r.pubDate with
  | some pd => pd
  | none => r.fetched_at

/-- The comparison `sorted(store.items(), key=sort_key, reverse=True)` sorts
by: `a` before `b` when `b`'s key is at most `a`'s. -/
def itemGe (a b : String × ItemRec) : Prop :=
  sort_key b.2 ≤ sort_key a.2

instance : DecidableRel itemGe :=
  fun a b => Int.decLe (sort_key b.2) (sort_key a.2)

instance : IsTotal (String × ItemRec) itemGe :=
  ⟨fun a b => Int.le_total (sort_key b.2) (sort_key a.2)⟩

instance : IsTrans (String × ItemRec) itemGe :=
  ⟨fun _ _ _ h₁ h₂ => le_trans h₂ h₁⟩

/-- Python's `sorted` with `reverse=True` is the stable descending sort;
a stable sort for a total transitive comparison is unique, and insertion
sort (inserting earlier elements before later ties) realizes it. -/
def sortedRecs (store : Store) : Store :=
  List.insertionSort itemGe store

/-- The rendered RSS channel: fixed metadata, `lastBuildDate` = the build
instant, and one rendered item per store record in sorted order
(source lines 179-221). -/
structure Channel where
  title : String
  link : String
  description : String
  lastBuildDate : Int
  items : List ItemXml
deriving DecidableEq

/-- Source `build_rss` up to serialization of the fixed channel frame. -/
def build_rss (store : Store) (buildTime : Int) : Channel :=
  { title := "Newsweek – cache (5h, 7 dni)"
    link := "https://www.newsweek.pl/"
    description := "Lustrzany cache jednego feedu, odświeżany co 5 godzin"
    lastBuildDate := buildTime
    items := (sortedRecs store).map (fun gr => renderItem gr.2) }

/-- One pipeline run (`main`, lines 234-242), from the loaded store and the
extracted feed items: prune, upsert, persist (the returned store) and render.
`now` is the prune instant, `fetched` the upsert timestamp, `buildTime` the
render instant. -/
def run_once (store0 : Store) (items : List ItemData) (now fetched buildTime : Int) :
    Store × Channel :=
  let store1 := prune_store store0 now
  let store2 := upsert_items store1 items fetched
  (store2, build_rss store2 buildTime)

/-! ### Concrete fixtures used by witnesses and counterexamples -/

/-- A minimal stored record with the given guid and fetch instant. -/
def recAged (g : String) (fetched : Int) : ItemRec :=
  { guid := g
    title := ""
    link := ""
    description := ""
    enclosure := none
    pubDate_raw := ""
    pubDate := none
    fetched_at := fetched }

/-- A concrete incoming record with guid `"g"`. -/
def sampleItem : ItemData :=
  { guid := "g"
    title := "T"
    link := "L"
    description := "D"
    enclosure := none
    pubDate_raw := "PR"
    pubDate := some 7 }

/-- A concrete raw item with non-empty link and a native enclosure. -/
def sampleRaw : RawItem :=
  { title := "t"
    link := "http://x/"
    description := "d"
    enclosure := some ("nu", "nl", "nt")
    guid := "id"
    pubDate_raw := "pd" }

/-- A minimal stored record with a canonical pubDate. -/
def recDated (g : String) (pd : Int) : ItemRec :=
  { guid := g
    title := ""
    link := ""
    description := ""
    enclosure := none
    pubDate_raw := ""
    pubDate := some pd
    fetched_at := 0 }

/-! ### Specification devices for the upsert characterization -/

/-- The last element of `items` whose guid is `g`. -/
def lastOcc (items : List ItemData) (g : String) : Option ItemData :=
  (items.filter (fun d => d.guid == g)).getLast?

/-- What one stored entry ends as after a full upsert pass over `items`:
untouched when its key is empty or never occurs, else overwritten by the
last occurrence. -/
def settle (items : List ItemData) (g : String) (r : ItemRec) : ItemRec :=
  if g = "" then r
  else
    match lastOcc items g with
    | some d => updateFields r d
    | none => r

/-- Settling every entry of a store pointwise. -/
def applyAll (st : Store) (items : List ItemData) : Store :=
  st.map (fun gr => (gr.1, settle items gr.1 gr.2))

/-! ### Store lemmas -/

/-- Keys of a store, in order. -/
def storeKeys (st : Store) : List String :=
  st.map Prod.fst

/-- A Python dict never repeats a key; stores loaded from one satisfy this. -/
def KeysNodup (st : Store) : Prop :=
  (storeKeys st).Nodup

theorem lookupRec_eq_none_iff (st : Store) (g : String) :
    lookupRec st g = none ↔ g ∉ storeKeys st := by
  induction st with
  | nil => simp [lookupRec, storeKeys]
  | cons e t ih =>
    obtain ⟨k, r⟩ := e
    by_cases h : k = g
    · simp [lookupRec, storeKeys, h]
    · simp only [lookupRec, if_neg h, ih, storeKeys, List.map_cons, List.mem_cons]
      constructor
      · intro hg hmem
        rcases hmem with h1 | h1
        · exact h (h1.symm)
        · exact hg h1
      · intro hg h1
        exact hg (Or.inr h1)

theorem lookupRec_mem {st : Store} {g : String} {r : ItemRec}
    (h : lookupRec st g = some r) : (g, r) ∈ st := by
  induction st with
  | nil => simp [lookupRec] at h
  | cons e t ih =>
    obtain ⟨k, v⟩ := e
    by_cases hk : k = g
    · subst hk
      simp [lookupRec] at h
      simp [h]
    · simp [lookupRec, hk] at h
      simp [ih h]

theorem mem_lookupRec_of_nodup {st : Store} (hn : KeysNodup st) {g : String}
    {r : ItemRec} (h : (g, r) ∈ st) : lookupRec st g = some r := by
  induction st with
  | nil => simp at h
  | cons e t ih =>
    obtain ⟨k, v⟩ := e
    have hn' : KeysNodup t := (List.nodup_cons.mp hn).2
    rcases List.mem_cons.mp h with h1 | h1
    · obtain ⟨h2, h3⟩ := Prod.mk.injEq .. ▸ h1.symm
      simp [lookupRec, h2.symm, h3]
    · have hk : k ≠ g := by
        intro hkg
        subst hkg
        exact (List.nodup_cons.mp hn).1 (by simpa [storeKeys] using List.mem_map_of_mem Prod.fst h1)
      simp [lookupRec, hk, ih hn' h1]

theorem storeKeys_updateRec (st : Store) (g : String) (v : ItemRec) :
    storeKeys (updateRec st g v) = storeKeys st := by
  induction st with
  | nil => rfl
  | cons e t ih =>
    obtain ⟨k, r⟩ := e
    by_cases h : k = g <;> simp [updateRec, storeKeys, h] at ih ⊢ <;>
      simpa [storeKeys] using ih

theorem lookupRec_updateRec_self {st : Store} {g : String} {r : ItemRec}
    (h : lookupRec st g = some r) (v : ItemRec) :
    lookupRec (updateRec st g v) g = some v := by
  induction st with
  | nil => simp [lookupRec] at h
  | cons e t ih =>
    obtain ⟨k, w⟩ := e
    by_cases hk : k = g
    · simp [updateRec, lookupRec, hk]
    · simp [lookupRec, hk] at h
      simp [updateRec, lookupRec, hk, ih h]

theorem lookupRec_updateRec_ne {k g : String} (h : k ≠ g) (st : Store) (v : ItemRec) :
    lookupRec (updateRec st g v) k = lookupRec st k := by
  induction st with
  | nil => rfl
  | cons e t ih =>
    obtain ⟨k', w⟩ := e
    by_cases hk : k' = g
    · subst hk
      simp [updateRec, lookupRec, Ne.symm h]
    · by_cases hk2 : k' = k <;> simp [updateRec, lookupRec, hk, hk2, h, ih]

theorem updateRec_eq_self {st : Store} {g : String} {r : ItemRec}
    (h : lookupRec st g = some r) : updateRec st g r = st := by
  induction st with
  | nil => rfl
  | cons e t ih =>
    obtain ⟨k, w⟩ := e
    by_cases hk : k = g
    · subst hk
      simp [lookupRec] at h
      simp [updateRec, h]
    · simp [lookupRec, hk] at h
      simp [updateRec, hk, ih h]

theorem mem_updateRec {st : Store} {g : String} {v : ItemRec} {e : String × ItemRec}
    (h : e ∈ updateRec st g v) : e ∈ st ∨ e = (g, v) := by
  induction st with
  | nil => simp [updateRec] at h
  | cons e' t ih =>
    obtain ⟨k, w⟩ := e'
    by_cases hk : k = g
    · subst hk
      simp [updateRec] at h
      rcases h with h | h
      · exact Or.inr (by simp [h])
      · exact Or.inl (List.mem_cons_of_mem _ h)
    · simp [updateRec, hk] at h
      rcases h with h | h
      · exact Or.inl (by simp [h])
      · rcases ih h with h' | h'
        · exact Or.inl (List.mem_cons_of_mem _ h')
        · exact Or.inr h'

theorem lookupRec_append (st st' : Store) (g : String) :
    lookupRec (st ++ st') g =
      match lookupRec st g with
      | some r => some r
      | none => lookupRec st' g := by
  induction st with
  | nil => simp [lookupRec]
  | cons e t ih =>
    obtain ⟨k, r⟩ := e
    by_cases hk : k = g <;> simp [lookupRec, hk, ih]

theorem upsertStep_of_guid_empty {d : ItemData} (h : d.guid = "") (st : Store) (f : Int) :
    upsertStep st d f = st := by
  simp [upsertStep, h]

theorem storeKeys_upsertStep (st : Store) (d : ItemData) (f : Int) :
    storeKeys (upsertStep st d f) = storeKeys st ∨
      (storeKeys (upsertStep st d f) = storeKeys st ++ [d.guid] ∧ d.guid ≠ "" ∧
        lookupRec st d.guid = none) := by
  by_cases hg : d.guid = ""
  · simp [upsertStep_of_guid_empty hg]
  · cases hl : lookupRec st d.guid with
    | none =>
      refine Or.inr ⟨?_, hg, rfl⟩
      simp [upsertStep, hg, hl, storeKeys]
    | some r =>
      refine Or.inl ?_
      simp [upsertStep, hg, hl, storeKeys_updateRec]

theorem keysNodup_upsertStep {st : Store} (hn : KeysNodup st) (d : ItemData) (f : Int) :
    KeysNodup (upsertStep st d f) := by
  rcases storeKeys_upsertStep st d f with h | ⟨h, _, hl⟩
  · rw [KeysNodup, h]
    exact hn
  · rw [KeysNodup, h]
    have hmem : d.guid ∉ storeKeys st := (lookupRec_eq_none_iff st d.guid).mp hl
    exact hn.append (List.nodup_singleton _) (List.disjoint_singleton.mpr hmem)

theorem keysNodup_upsert_items {st : Store} (hn : KeysNodup st) (items : List ItemData)
    (f : Int) : KeysNodup (upsert_items st items f) := by
  induction items generalizing st with
  | nil => exact hn
  | cons d rest ih => exact ih (keysNodup_upsertStep hn d f)

theorem lookupRec_isSome_upsertStep {st : Store} {k : String}
    (h : (lookupRec st k).isSome) (d : ItemData) (f : Int) :
    (lookupRec (upsertStep st d f) k).isSome := by
  by_cases hg : d.guid = ""
  · simpa [upsertStep_of_guid_empty hg] using h
  · cases hl : lookupRec st d.guid with
    | none =>
      rw [upsertStep, if_neg hg, hl]
      rw [lookupRec_append]
      cases hk : lookupRec st k with
      | none => simp [hk] at h
      | some r => simp
    | some r =>
      rw [upsertStep, if_neg hg, hl]
      by_cases hkd : k = d.guid
      · subst hkd
        simp [lookupRec_updateRec_self hl]
      · simpa [lookupRec_updateRec_ne hkd] using h

theorem lookupRec_isSome_upsert_items {st : Store} {k : String}
    (h : (lookupRec st k).isSome) (items : List ItemData) (f : Int) :
    (lookupRec (upsert_items st items f) k).isSome := by
  induction items generalizing st with
  | nil => exact h
  | cons d rest ih => exact ih (lookupRec_isSome_upsertStep h d f)

theorem upsertStep_provides {d : ItemData} (hg : d.guid ≠ "") (st : Store) (f : Int) :
    (lookupRec (upsertStep st d f) d.guid).isSome := by
  cases hl : lookupRec st d.guid with
  | none =>
    rw [upsertStep, if_neg hg, hl, lookupRec_append, hl]
    simp [lookupRec]
  | some r =>
    rw [upsertStep, if_neg hg, hl]
    simp [lookupRec_updateRec_self hl]

theorem upsert_items_provides {items : List ItemData} {d : ItemData} (hd : d ∈ items)
    (hg : d.guid ≠ "") (st : Store) (f : Int) :
    (lookupRec (upsert_items st items f) d.guid).isSome := by
  induction items generalizing st with
  | nil => simp at hd
  | cons d0 rest ih =>
    rcases List.mem_cons.mp hd with h | h
    · subst h
      exact lookupRec_isSome_upsert_items (upsertStep_provides hg st f) rest f
    · exact ih h (upsertStep st d0 f)

theorem lookupRec_upsert_items_of_no_occ {items : List ItemData} {g : String}
    (h : ∀ d ∈ items, d.guid ≠ g) (st : Store) (f : Int) :
    lookupRec (upsert_items st items f) g = lookupRec st g := by
  induction items generalizing st with
  | nil => rfl
  | cons d rest ih =>
    have hd : d.guid ≠ g := h d (List.mem_cons_self d rest)
    have hrest : ∀ d' ∈ rest, d'.guid ≠ g := fun d' hm => h d' (List.mem_cons_of_mem d hm)
    show lookupRec (upsert_items (upsertStep st d f) rest f) g = lookupRec st g
    rw [ih hrest]
    by_cases hg : d.guid = ""
    · rw [upsertStep_of_guid_empty hg]
    · cases hl : lookupRec st d.guid with
      | none =>
        rw [upsertStep, if_neg hg, hl, lookupRec_append]
        cases hk : lookupRec st g with
        | none => simp [lookupRec, hd]
        | some r => simp
      | some r =>
        rw [upsertStep, if_neg hg, hl, lookupRec_updateRec_ne (Ne.symm hd)]

theorem updateFields_fetched_at (r : ItemRec) (d : ItemData) :
    (updateFields r d).fetched_at = r.fetched_at := rfl

/-- Either a key is still absent, or its record carries the loop's single
timestamp: the invariant `upsert_items` maintains for keys absent at entry. -/
def FetchedInv (g : String) (f : Int) (st : Store) : Prop :=
  lookupRec st g = none ∨ ∃ r0, lookupRec st g = some r0 ∧ r0.fetched_at = f

theorem fetchedInv_upsertStep {g : String} {f : Int} {st : Store}
    (h : FetchedInv g f st) (d : ItemData) : FetchedInv g f (upsertStep st d f) := by
  by_cases hg : d.guid = ""
  · rwa [upsertStep_of_guid_empty hg]
  · cases hl : lookupRec st d.guid with
    | none =>
      rw [FetchedInv, upsertStep, if_neg hg, hl, lookupRec_append]
      rcases h with h | ⟨r0, hr, hf⟩
      · rw [h]
        by_cases hgd : d.guid = g
        · exact Or.inr ⟨mkStored d f, by simp [lookupRec, hgd], rfl⟩
        · exact Or.inl (by simp [lookupRec, hgd])
      · rw [hr]
        exact Or.inr ⟨r0, rfl, hf⟩
    | some r1 =>
      rw [FetchedInv, upsertStep, if_neg hg, hl]
      by_cases hgd : g = d.guid
      · subst hgd
        rcases h with h | ⟨r0, hr, hf⟩
        · rw [h] at hl
          cases hl
        · rw [hr] at hl
          cases hl
          exact Or.inr ⟨updateFields r1 d, lookupRec_updateRec_self hr _, hf⟩
      · rw [lookupRec_updateRec_ne hgd]
        exact h

theorem fetchedInv_upsert_items {g : String} {f : Int} {st : Store}
    (h : FetchedInv g f st) (items : List ItemData) :
    FetchedInv g f (upsert_items st items f) := by
  induction items generalizing st with
  | nil => exact h
  | cons d rest ih => exact ih (fetchedInv_upsertStep h d)

/-- C10: every record newly inserted during one `upsert_items` call receives
the identical `fetched_at`, the one timestamp taken once before the loop
(`fetched = nowiso()`, source line 168), not a per-record timestamp. -/
theorem upsert_new_records_share_fetched (st : Store) (items : List ItemData) (f : Int)
    (g : String) (r : ItemRec) (hnew : lookupRec st g = none)
    (hfound : lookupRec (upsert_items st items f) g = some r) :
    r.fetched_at = f := by
  rcases fetchedInv_upsert_items (Or.inl hnew) items with h | ⟨r0, hr, hf⟩
  · rw [h] at hfound
    cases hfound
  · rw [hr] at hfound
    cases hfound
    exact hf

/-- Witness for C10 at a concrete store and item list. -/
theorem upsert_new_records_share_fetched_w :
    lookupRec (upsert_items [("a", recAged "a" 0)] [sampleItem] 7) "g" =
      some (mkStored sampleItem 7) ∧ (mkStored sampleItem 7).fetched_at = 7 :=
  ⟨by decide,
    upsert_new_records_share_fetched [("a", recAged "a" 0)] [sampleItem] 7 "g"
      (mkStored sampleItem 7) (by decide) (by decide)⟩

/-- C4: upserting an already-present guid replaces title, link, description,
enclosure, pubDate_raw and pubDate wholesale with the incoming values, while
the stored guid and fetched_at keep their original values. -/
theorem upsert_existing_replaces_fields (st : Store) (d : ItemData) (f : Int) (r : ItemRec)
    (hg : d.guid ≠ "") (hl : lookupRec st d.guid = some r) :
    lookupRec (upsert_items st [d] f) d.guid = some
      { guid := r.guid
        title := d.title
        link := d.link
        description := d.description
        enclosure := d.enclosure
        pubDate_raw := d.pubDate_raw
        pubDate := d.pubDate
        fetched_at := r.fetched_at } := by
  show lookupRec (upsertStep st d f) d.guid = _
  rw [upsertStep, if_neg hg, hl, lookupRec_updateRec_self hl]
  rfl

/-- Witness for C4: the incoming record overwrites every field (even with
empty values elsewhere) but fetched_at stays 5 and guid stays g. -/
theorem upsert_existing_replaces_fields_w :
    lookupRec (upsert_items [("g", recAged "g" 5)] [sampleItem] 99) "g" = some
      { guid := "g"
        title := "T"
        link := "L"
        description := "D"
        enclosure := none
        pubDate_raw := "PR"
        pubDate := some 7
        fetched_at := 5 } := by
  have h := upsert_existing_replaces_fields [("g", recAged "g" 5)] sampleItem 99
    (recAged "g" 5) (by decide) (by decide)
  exact h.trans (by decide)

/-- C5: prune removes exactly the records strictly older than the 7-day
cutoff; at `now = 0` a record fetched 8 days ago is removed while records
fetched 6 and exactly 7 days ago are retained. -/
theorem prune_store_retention :
    (∀ (st : Store) (now : Int) (e : String × ItemRec),
      e ∈ prune_store st now ↔
        e ∈ st ∧ ¬(e.2.fetched_at < now - RETENTION_DAYS * 86400)) ∧
    prune_store
      [("8d", recAged "8d" (-691200)), ("6d", recAged "6d" (-518400)),
        ("7d", recAged "7d" (-604800))] 0 =
      [("6d", recAged "6d" (-518400)), ("7d", recAged "7d" (-604800))] := by
  constructor
  · intro st now e
    simp [prune_store, List.mem_filter]
  · decide

theorem lookupRec_upsert_items_empty_key (st : Store) (items : List ItemData) (f : Int) :
    lookupRec (upsert_items st items f) "" = lookupRec st "" := by
  induction items generalizing st with
  | nil => rfl
  | cons d rest ih =>
    show lookupRec (upsert_items (upsertStep st d f) rest f) "" = _
    rw [ih]
    by_cases hg : d.guid = ""
    · rw [upsertStep_of_guid_empty hg]
    · cases hl : lookupRec st d.guid with
      | none =>
        rw [upsertStep, if_neg hg, hl, lookupRec_append]
        cases hk : lookupRec st "" with
        | none => simp [lookupRec, hg]
        | some r => simp
      | some r =>
        rw [upsertStep, if_neg hg, hl, lookupRec_updateRec_ne (Ne.symm hg)]

theorem keys_ne_empty_upsert_items {st : Store} {f : Int}
    (h : ∀ g ∈ storeKeys st, g ≠ "") (items : List ItemData) :
    ∀ g ∈ storeKeys (upsert_items st items f), g ≠ "" := by
  induction items generalizing st with
  | nil => exact h
  | cons d rest ih =>
    refine ih (fun g hg => ?_)
    rcases storeKeys_upsertStep st d f with hEq | ⟨hEq, hgne, _⟩
    · rw [hEq] at hg
      exact h g hg
    · rw [hEq] at hg
      rcases List.mem_append.mp hg with hmem | hmem
      · exact h g hmem
      · rw [List.mem_singleton.mp hmem]
        exact hgne

/-- C8: non-emptiness of every stored guid is an invariant: prune and upsert
both preserve it, and upsert never creates the empty key (an incoming record
whose normalized guid is empty is skipped, source lines 171-172). -/
theorem store_guid_nonempty_invariant (st : Store) (now : Int) (items : List ItemData)
    (f : Int) (h : ∀ g ∈ storeKeys st, g ≠ "") :
    (∀ g ∈ storeKeys (prune_store st now), g ≠ "") ∧
    (∀ g ∈ storeKeys (upsert_items st items f), g ≠ "") ∧
    lookupRec (upsert_items st items f) "" = lookupRec st "" := by
  refine ⟨?_, keys_ne_empty_upsert_items h items, lookupRec_upsert_items_empty_key st items f⟩
  intro g hg
  have hsub : (storeKeys (prune_store st now)).Sublist (storeKeys st) :=
    (List.filter_sublist st).map Prod.fst
  exact h g (hsub.subset hg)

/-- Witness for C8: concretely, the store after an upsert has no empty key. -/
theorem store_guid_nonempty_invariant_w :
    (storeKeys (upsert_items [("a", recAged "a" 0)] [sampleItem] 7)).all
      (fun g => g != "") = true := by
  have h := (store_guid_nonempty_invariant [("a", recAged "a" 0)] 0 [sampleItem] 7
    (by decide)).2.1
  rw [List.all_eq_true]
  intro g hg
  simpa using h g hg

/-- C1 (evidence of the code bug): a stored description `a<b` is rendered
with its markup entity-escaped inside the CDATA wrapper, and with the
four-character close sequence `]]]>` the source substitutes on line 228 -
not as the verbatim text terminated by the standard `]]>`. -/
theorem description_cdata_code_bug :
    renderDescription "a<b" = some "<![CDATA[a&lt;b]]]>" ∧
    renderDescription "a<b" ≠ some "<![CDATA[a<b]]>" :=
  ⟨by decide, by decide⟩

/-- C3 counterexample: an enclosure with the resolver's always-empty length
is rendered with a `length` attribute whose value is the empty string; the
attribute set is not restricted to the non-empty values, as the claim
states. -/
theorem enclosure_empty_attr_counterexample :
    renderEnclosure (some { url := some "u", length := some "", type := some "image/jpeg" }) =
      some [("url", "u"), ("length", ""), ("type", "image/jpeg")] ∧
    renderEnclosure (some { url := some "u", length := some "", type := some "image/jpeg" }) ≠
      some [("url", "u"), ("type", "image/jpeg")] :=
  ⟨by decide, by decide⟩

/-- C3 amended: the enclosure element is emitted exactly when the record has
an enclosure with truthy url, and carries exactly those of the
url/length/type attributes whose values are present (not `None`) - an
empty-string value (such as the resolver's always-empty length) is emitted
as an attribute with empty value; the resolver's length is always `""`. -/
theorem enclosure_attrs_present_values (e : Enc) (m : Option String) :
    renderEnclosure none = none ∧
    (truthyStr e.url = false → renderEnclosure (some e) = none) ∧
    (truthyStr e.url = true →
      ∀ k v, (k, v) ∈ (renderEnclosure (some e)).getD [] ↔
        ((k = "url" ∧ e.url = some v) ∨ (k = "length" ∧ e.length = some v) ∨
          (k = "type" ∧ e.type = some v))) ∧
    (∀ e2, fetch_og_image m = some e2 → e2.length = some "") := by
  obtain ⟨u, lng, ty⟩ := e
  refine ⟨rfl, ?_, ?_, ?_⟩
  · intro h
    simp [renderEnclosure, h]
  · intro h k v
    cases u with
    | none => simp [truthyStr] at h
    | some su =>
      cases lng <;> cases ty <;> simp [renderEnclosure, h] <;> aesop
  · intro e2 he
    cases m with
    | none => simp [fetch_og_image] at he
    | some s =>
      by_cases hs : (⟨pyStrip s.data⟩ : String) = ""
      · simp [fetch_og_image, hs] at he
      · simp [fetch_og_image, hs] at he
        rw [← he]

/-- C7: when a raw item has a non-empty link, a resolver result with truthy
url wholesale-replaces the native enclosure (and every resolver result has
truthy url), while a failed resolution (`None`) leaves the native enclosure,
or its absence, unchanged; extraction itself is total either way. -/
theorem og_image_override (it : RawItem) (og : String → Option String)
    (parsePub : String → Option Int) (hlink : it.link ≠ "") :
    (∀ e, fetch_og_image (og it.link) = some e → truthyStr e.url = true) ∧
    (∀ e, fetch_og_image (og it.link) = some e →
      (extract_item_data it og parsePub).enclosure = some e) ∧
    (fetch_og_image (og it.link) = none →
      (extract_item_data it og parsePub).enclosure =
        it.enclosure.map (fun a => { url := some a.1, length := some a.2.1, type := some a.2.2 })) := by
  have hurl : ∀ e, fetch_og_image (og it.link) = some e → truthyStr e.url = true := by
    intro e he
    cases hm : og it.link with
    | none => rw [hm] at he; simp [fetch_og_image] at he
    | some m =>
      rw [hm] at he
      by_cases hs : (⟨pyStrip m.data⟩ : String) = ""
      · simp [fetch_og_image, hs] at he
      · simp [fetch_og_image, hs] at he
        rw [← he]
        simp [truthyStr, hs]
  refine ⟨hurl, ?_, ?_⟩
  · intro e he
    simp [extract_item_data, hlink, he, hurl e he]
  · intro hnone
    simp [extract_item_data, hlink, hnone]

/-- Witness for C7: a resolved og:image replaces the feed enclosure of
`sampleRaw` entirely. -/
theorem og_image_override_w :
    (extract_item_data sampleRaw (fun _ => some "U") (fun _ => none)).enclosure =
      some { url := some "U", length := some "", type := some "image/jpeg" } :=
  (og_image_override sampleRaw (fun _ => some "U") (fun _ => none) (by decide)).2.1
    { url := some "U", length := some "", type := some "image/jpeg" } (by decide)

/-- C6: the renderer emits one item per store record, in descending order of
sort key (canonical pubDate when present, else fetched_at): the emitted list
is the sorted permutation of the store, and on the concrete three-record
store with pubDates day 1 and day 3 and a pubDate-less record fetched day 2,
the order is day 3, day-2-fetched, day 1. -/
theorem build_rss_items_sorted :
    (∀ (store : Store) (t : Int),
      (build_rss store t).items = (sortedRecs store).map (fun gr => renderItem gr.2) ∧
      (sortedRecs store).Perm store ∧ (sortedRecs store).Pairwise itemGe) ∧
    (sortedRecs
      [("day1", recDated "day1" 86400), ("day3", recDated "day3" 259200),
        ("day2f", recAged "day2f" 172800)]).map Prod.fst = ["day3", "day2f", "day1"] := by
  refine ⟨fun store t => ⟨rfl, List.perm_insertionSort itemGe store, ?_⟩, by decide⟩
  exact List.sorted_insertionSort itemGe store

/-! ### Guid normalization: the three clauses of `guid_clean` -/

theorem toNat_ofNat_valid {n : Nat} (h : n.isValidChar) : (Char.ofNat n).toNat = n := by
  rw [Char.ofNat, dif_pos h]
  rfl

theorem toLower_eq_colon {c : Char} (h : c.toLower = ':') : c = ':' := by
  rw [Char.toLower] at h
  split at h
  · next hc =>
    have h2 := congrArg Char.toNat h
    rw [toNat_ofNat_valid (Or.inl (by omega))] at h2
    rw [show (':' : Char).toNat = 58 from rfl] at h2
    omega
  · exact h

theorem ne_colon_of_toLower {c x : Char} (h : c.toLower = x) (hx : x ≠ ':') : c ≠ ':' := by
  intro hc
  subst hc
  exact hx (by rw [← h]; decide)

/-- When the lowercased string starts with `urn:uuid:`, splitting at most
twice on `:` and keeping the last piece is exactly stripping the 9-character
prefix. -/
theorem splitMax2Last_urn (l : List Char)
    (h : List.isPrefixOf "urn:uuid:".data (l.map Char.toLower) = true) :
    splitMax2Last l = l.drop 9 := by
  rcases l with _ | ⟨c0, _ | ⟨c1, _ | ⟨c2, _ | ⟨c3, _ | ⟨c4, _ | ⟨c5, _ | ⟨c6, _ | ⟨c7, _ | ⟨c8, rest⟩⟩⟩⟩⟩⟩⟩⟩⟩ <;>
    simp [List.isPrefixOf, String.data] at h
  obtain ⟨h0, h1, h2, h3, h4, h5, h6, h7, h8⟩ := h
  have e3 : c3 = ':' := toLower_eq_colon h3.symm
  have e8 : c8 = ':' := toLower_eq_colon h8.symm
  have n0 : c0 ≠ ':' := ne_colon_of_toLower h0.symm (by decide)
  have n1 : c1 ≠ ':' := ne_colon_of_toLower h1.symm (by decide)
  have n2 : c2 ≠ ':' := ne_colon_of_toLower h2.symm (by decide)
  have n4 : c4 ≠ ':' := ne_colon_of_toLower h4.symm (by decide)
  have n5 : c5 ≠ ':' := ne_colon_of_toLower h5.symm (by decide)
  have n6 : c6 ≠ ':' := ne_colon_of_toLower h6.symm (by decide)
  have n7 : c7 ≠ ':' := ne_colon_of_toLower h7.symm (by decide)
  subst e3
  subst e8
  simp [splitMax2Last, dropThroughColon, n0, n1, n2, n4, n5, n6, n7]

theorem splitColon_colon_cons (cs : List Char) :
    splitColon (':' :: cs) = [] :: splitColon cs := by
  simp [splitColon]

theorem splitColon_cons_ne {c : Char} (hc : c ≠ ':') {cs : List Char}
    {p : List Char} {ps : List (List Char)} (hs : splitColon cs = p :: ps) :
    splitColon (c :: cs) = (c :: p) :: ps := by
  simp [splitColon, hc, hs]

theorem splitColon_ne_nil (l : List Char) : splitColon l ≠ [] := by
  cases l with
  | nil => simp [splitColon]
  | cons c cs =>
    by_cases h : c = ':'
    · simp [splitColon, h]
    · simp only [splitColon, h, if_false]
      cases hs : splitColon cs <;> simp

theorem splitColon_of_not_mem {l : List Char} (h : ':' ∉ l) : splitColon l = [l] := by
  induction l with
  | nil => rfl
  | cons c cs ih =>
    have hc : c ≠ ':' := fun hc => h (hc ▸ List.mem_cons_self c cs)
    have hcs : ':' ∉ cs := fun hm => h (List.mem_cons_of_mem c hm)
    simp [splitColon, hc, ih hcs]

theorem two_le_splitColon_of_mem {l : List Char} (h : ':' ∈ l) :
    2 ≤ (splitColon l).length := by
  induction l with
  | nil => simp at h
  | cons c cs ih =>
    by_cases hc : c = ':'
    · subst hc
      have := List.length_pos.mpr (splitColon_ne_nil cs)
      rw [splitColon_colon_cons, List.length_cons]
      omega
    · have hm : ':' ∈ cs := by
        rcases List.mem_cons.mp h with h1 | h1
        · exact absurd h1.symm hc
        · exact h1
      specialize ih hm
      cases hs : splitColon cs with
      | nil => exact absurd hs (splitColon_ne_nil cs)
      | cons p ps =>
        rw [hs] at ih
        rw [splitColon_cons_ne hc hs]
        simp at ih ⊢
        omega

theorem lastPiece_colon_cons (cs : List Char) :
    (splitColon (':' :: cs)).getLastD [] = (splitColon cs).getLastD [] := by
  rw [splitColon_colon_cons, List.getLastD_cons]

theorem lastPiece_cons {c : Char} (hc : c ≠ ':') (cs : List Char) :
    (splitColon (c :: cs)).getLastD [] =
      if ':' ∈ cs then (splitColon cs).getLastD [] else c :: cs := by
  by_cases hm : ':' ∈ cs
  · rw [if_pos hm]
    obtain ⟨p, ps, hs⟩ : ∃ p ps, splitColon cs = p :: ps := by
      cases hsp : splitColon cs with
      | nil => exact absurd hsp (splitColon_ne_nil cs)
      | cons p ps => exact ⟨p, ps, rfl⟩
    have hlen := two_le_splitColon_of_mem hm
    rw [hs] at hlen
    obtain ⟨q, ps2, hps⟩ : ∃ q ps2, ps = q :: ps2 := by
      cases ps with
      | nil => simp at hlen
      | cons q ps2 => exact ⟨q, ps2, rfl⟩
    subst hps
    rw [splitColon_cons_ne hc hs, hs]
    rw [List.getLastD_cons, List.getLastD_cons, List.getLastD_cons, List.getLastD_cons]
  · rw [if_neg hm]
    rw [splitColon_cons_ne hc (splitColon_of_not_mem hm)]
    rfl

/-- The last piece of a colon-split is the (colon-free) suffix after the
last colon. -/
theorem lastPiece_decomp {l : List Char} (h : ':' ∈ l) :
    ∃ pre, l = pre ++ ':' :: (splitColon l).getLastD [] ∧
      ':' ∉ (splitColon l).getLastD [] := by
  induction l with
  | nil => simp at h
  | cons c cs ih =>
    by_cases hc : c = ':'
    · subst hc
      rw [lastPiece_colon_cons]
      by_cases hm : ':' ∈ cs
      · obtain ⟨pre, hpre, hno⟩ := ih hm
        exact ⟨':' :: pre, by rw [List.cons_append, ← hpre], hno⟩
      · rw [splitColon_of_not_mem hm]
        refine ⟨[], ?_, by simpa using hm⟩
        simp
    · have hm : ':' ∈ cs := by
        rcases List.mem_cons.mp h with h1 | h1
        · exact absurd h1.symm hc
        · exact h1
      rw [lastPiece_cons hc, if_pos hm]
      obtain ⟨pre, hpre, hno⟩ := ih hm
      exact ⟨c :: pre, by rw [List.cons_append, ← hpre], hno⟩

/-- C2 counterexample: the claim maps `tag:example.com,2024:post/42` to
`42`, but the substring after the last colon - which is what both the rule
and the code produce - is `post/42`. -/
theorem guid_clean_tag_counterexample :
    guid_clean "tag:example.com,2024:post/42" = "post/42" ∧
    guid_clean "tag:example.com,2024:post/42" ≠ "42" :=
  ⟨by decide, by decide⟩

/-- C2 amended: guid normalization behaves by the claim's rule - the
case-insensitive `urn:uuid:` prefix is stripped; else a string containing a
colon keeps exactly the (colon-free) substring after its last colon; else
the string is unchanged - with the second example corrected to
`tag:example.com,2024:post/42 → post/42`. -/
theorem guid_clean_spec (raw : String) :
    (List.isPrefixOf "urn:uuid:".data (raw.data.map Char.toLower) = true →
      guid_clean raw = ⟨raw.data.drop 9⟩) ∧
    (List.isPrefixOf "urn:uuid:".data (raw.data.map Char.toLower) = false →
      ':' ∈ raw.data →
      ∃ pre, raw.data = pre ++ ':' :: (guid_clean raw).data ∧
        ':' ∉ (guid_clean raw).data) ∧
    (List.isPrefixOf "urn:uuid:".data (raw.data.map Char.toLower) = false →
      ':' ∉ raw.data → guid_clean raw = raw) := by
  refine ⟨?_, ?_, ?_⟩
  · intro h
    have hne : raw.data ≠ [] := by
      intro h0
      rw [h0] at h
      simp [List.isPrefixOf] at h
    rw [guid_clean, if_neg hne, if_pos h]
    exact congrArg String.mk (splitMax2Last_urn raw.data h)
  · intro hpre hcol
    have hne : raw.data ≠ [] := List.ne_nil_of_mem hcol
    have hcont : raw.data.contains ':' = true := by
      simpa [List.contains] using hcol
    rw [guid_clean, if_neg hne, if_neg (by simp [hpre]), if_pos hcont]
    simpa using lastPiece_decomp hcol
  · intro hpre hcol
    by_cases hne : raw.data = []
    · have hraw : raw = "" := by
        cases raw with
        | mk data =>
          simp only [String.data] at hne
          rw [hne]
      rw [hraw]
      rfl
    · have hcont : ¬(raw.data.contains ':' = true) := by
        simpa [List.contains] using hcol
      rw [guid_clean, if_neg hne, if_neg (by simp [hpre]), if_neg hcont]

/-- Witness for C2 at the claim's concrete inputs. -/
theorem guid_clean_spec_w :
    guid_clean "urn:uuid:ABCD-1234" = "ABCD-1234" ∧
    guid_clean "plain-id" = "plain-id" := by
  constructor
  · have h := (guid_clean_spec "urn:uuid:ABCD-1234").1 (by decide)
    exact h.trans (by decide)
  · exact (guid_clean_spec "plain-id").2.2 (by decide) (by decide)

/-! ### The upsert pass characterized pointwise (towards idempotence) -/

theorem getLast?_cons_eq_getLastD {α : Type} (a : α) (l : List α) :
    (a :: l).getLast? = some (l.getLastD a) := by
  induction l generalizing a with
  | nil => rfl
  | cons b t ih => rw [List.getLast?_cons_cons, ih, List.getLastD_cons]

theorem updateFields_updateFields (r : ItemRec) (d1 d2 : ItemData) :
    updateFields (updateFields r d1) d2 = updateFields r d2 := rfl

theorem updateFields_mkStored (d : ItemData) (f : Int) :
    updateFields (mkStored d f) d = mkStored d f := rfl

theorem lastOcc_cons_eq {d : ItemData} {g : String} (hd : d.guid = g) (rs : List ItemData) :
    lastOcc (d :: rs) g = some ((rs.filter (fun x => x.guid == g)).getLastD d) := by
  rw [lastOcc, List.filter_cons, if_pos (by simp [hd])]
  exact getLast?_cons_eq_getLastD d _

theorem lastOcc_cons_ne {d : ItemData} {g : String} (hd : d.guid ≠ g) (rs : List ItemData) :
    lastOcc (d :: rs) g = lastOcc rs g := by
  rw [lastOcc, lastOcc, List.filter_cons, if_neg (by simp [hd])]

theorem settle_cons_of_ne {g : String} {d : ItemData} (h : d.guid ≠ g) (rs : List ItemData)
    (r : ItemRec) : settle (d :: rs) g r = settle rs g r := by
  by_cases hg : g = ""
  · simp [settle, hg]
  · simp [settle, hg, lastOcc_cons_ne h]

theorem settle_updateFields {g : String} (hg : g ≠ "") {d : ItemData} (hd : d.guid = g)
    (rs : List ItemData) (r : ItemRec) :
    settle rs g (updateFields r d) = settle (d :: rs) g r := by
  rw [settle, settle, if_neg hg, if_neg hg, lastOcc_cons_eq hd]
  cases hfo : lastOcc rs g with
  | some d2 =>
    have hgl : (rs.filter (fun x => x.guid == g)).getLastD d = d2 := by
      rw [List.getLastD_eq_getLast?]
      rw [lastOcc] at hfo
      rw [hfo]
      rfl
    rw [hgl]
    exact updateFields_updateFields r d d2
  | none =>
    have hfil : rs.filter (fun x => x.guid == g) = [] := by
      rw [lastOcc] at hfo
      exact List.getLast?_eq_none_iff.mp hfo
    rw [hfil]
    rfl

theorem applyAll_nil (st : Store) : applyAll st [] = st := by
  simp [applyAll, settle, lastOcc]

theorem applyAll_cons_of_ne {st : Store} {d : ItemData} (h : ∀ e ∈ st, e.1 ≠ d.guid)
    (rs : List ItemData) : applyAll st (d :: rs) = applyAll st rs :=
  List.map_congr_left (fun e he => by rw [settle_cons_of_ne (Ne.symm (h e he))])

theorem applyAll_cons_of_guid_empty {d : ItemData} (h : d.guid = "") (st : Store)
    (rs : List ItemData) : applyAll st (d :: rs) = applyAll st rs := by
  refine List.map_congr_left (fun e he => ?_)
  by_cases hg : e.1 = ""
  · simp [settle, hg]
  · rw [settle_cons_of_ne (by rw [h]; exact Ne.symm hg)]

theorem lookupRec_isSome_iff (st : Store) (k : String) :
    (lookupRec st k).isSome ↔ k ∈ storeKeys st := by
  cases h : lookupRec st k with
  | none => simp [h, (lookupRec_eq_none_iff st k).mp h]
  | some r =>
    simp only [Option.isSome_some, true_iff]
    by_contra hk
    rw [(lookupRec_eq_none_iff st k).mpr hk] at h
    cases h

/-- Updating one key in place then settling the rest equals settling with
the update prepended to the item list (keys unique). -/
theorem applyAll_updateRec {g0 : String} (hg : g0 ≠ "") {d : ItemData} (hd : d.guid = g0)
    (rs : List ItemData) :
    ∀ (st : Store), KeysNodup st → ∀ r0, lookupRec st g0 = some r0 →
      applyAll (updateRec st g0 (updateFields r0 d)) rs = applyAll st (d :: rs) := by
  intro st
  induction st with
  | nil =>
    intro _ r0 hl
    simp [lookupRec] at hl
  | cons e t ih =>
    obtain ⟨k, r⟩ := e
    intro hn r0 hl
    have hcons : (k :: storeKeys t).Nodup := hn
    have hnk : k ∉ storeKeys t := (List.nodup_cons.mp hcons).1
    have hnt : KeysNodup t := (List.nodup_cons.mp hcons).2
    by_cases hk : k = g0
    · subst hk
      rw [lookupRec, if_pos rfl] at hl
      obtain rfl : r = r0 := by injection hl
      rw [updateRec, if_pos rfl]
      simp only [applyAll, List.map_cons]
      congr 1
      · rw [settle_updateFields hg hd]
      · refine (applyAll_cons_of_ne (fun e2 he2 heq => ?_) rs).symm
        exact hnk (by rw [← hd, ← heq]; exact List.mem_map_of_mem Prod.fst he2)
    · have hl2 : lookupRec t g0 = some r0 := by rwa [lookupRec, if_neg hk] at hl
      rw [updateRec, if_neg hk]
      simp only [applyAll, List.map_cons]
      congr 1
      · rw [settle_cons_of_ne (by rw [hd]; exact fun h2 => hk h2.symm)]
      · exact ih hnt r0 hl2

/-- One full upsert pass over a store already holding every incoming key is
the pointwise settling of that store. -/
theorem upsert_eq_applyAll (items : List ItemData) :
    ∀ (st : Store) (f : Int), KeysNodup st →
      (∀ d ∈ items, d.guid ≠ "" → (lookupRec st d.guid).isSome) →
      upsert_items st items f = applyAll st items := by
  induction items with
  | nil =>
    intro st f _ _
    exact (applyAll_nil st).symm
  | cons d rest ih =>
    intro st f hn hprov
    show upsert_items (upsertStep st d f) rest f = applyAll st (d :: rest)
    by_cases hg : d.guid = ""
    · rw [upsertStep_of_guid_empty hg,
        ih st f hn (fun d2 hd2 => hprov d2 (List.mem_cons_of_mem d hd2))]
      exact (applyAll_cons_of_guid_empty hg st rest).symm
    · have hsome := hprov d (List.mem_cons_self d rest) hg
      obtain ⟨r0, hl⟩ : ∃ r0, lookupRec st d.guid = some r0 := by
        cases hq : lookupRec st d.guid with
        | none => rw [hq] at hsome; simp at hsome
        | some r0 => exact ⟨r0, rfl⟩
      rw [upsertStep, if_neg hg, hl]
      have hn1 : KeysNodup (updateRec st d.guid (updateFields r0 d)) := by
        rw [KeysNodup, storeKeys_updateRec]
        exact hn
      have hprov1 : ∀ d2 ∈ rest, d2.guid ≠ "" →
          (lookupRec (updateRec st d.guid (updateFields r0 d)) d2.guid).isSome := by
        intro d2 hd2 hg2
        rw [lookupRec_isSome_iff, storeKeys_updateRec, ← lookupRec_isSome_iff]
        exact hprov d2 (List.mem_cons_of_mem d hd2) hg2
      rw [ih _ f hn1 hprov1]
      exact applyAll_updateRec hg rfl rest st hn r0 hl

/-- After a full upsert pass, every stored record whose guid occurs among the
items already equals its settling: a second pass will not change it. -/
theorem upsert_settles (items : List ItemData) :
    ∀ (st : Store) (f : Int) (g : String) (r : ItemRec), g ≠ "" →
      lookupRec (upsert_items st items f) g = some r → settle items g r = r := by
  induction items with
  | nil =>
    intro st f g r hg _
    simp [settle, lastOcc]
  | cons d rest ih =>
    intro st f g r hg hfound
    have hfound2 : lookupRec (upsert_items (upsertStep st d f) rest f) g = some r := hfound
    by_cases hocc : ∃ d2 ∈ rest, d2.guid = g
    · have hset : settle (d :: rest) g r = settle rest g r := by
        by_cases hd : d.guid = g
        · obtain ⟨d2, hd2, hgd2⟩ := hocc
          obtain ⟨p, ps, hps⟩ : ∃ p ps, rest.filter (fun x => x.guid == g) = p :: ps := by
            cases hq : rest.filter (fun x => x.guid == g) with
            | nil =>
              have hin : d2 ∈ rest.filter (fun x => x.guid == g) :=
                List.mem_filter.mpr ⟨hd2, by simp [hgd2]⟩
              rw [hq] at hin
              simp at hin
            | cons p ps => exact ⟨p, ps, rfl⟩
          rw [settle, settle, if_neg hg, if_neg hg, lastOcc_cons_eq hd, hps, lastOcc, hps,
            getLast?_cons_eq_getLastD, List.getLastD_cons]
        · exact settle_cons_of_ne hd rest r
      rw [hset]
      exact ih _ f g r hg hfound2
    · push_neg at hocc
      rw [lookupRec_upsert_items_of_no_occ hocc _ f] at hfound2
      have hfil : rest.filter (fun x => x.guid == g) = [] := by
        rw [List.filter_eq_nil_iff]
        intro a ha
        simp [hocc a ha]
      by_cases hd : d.guid = g
      · rw [settle, if_neg hg, lastOcc_cons_eq hd, hfil]
        show updateFields r d = r
        subst hd
        cases hl : lookupRec st d.guid with
        | none =>
          rw [upsertStep, if_neg hg, hl, lookupRec_append, hl] at hfound2
          simp only [lookupRec, if_pos rfl] at hfound2
          rw [← Option.some_inj.mp hfound2]
          exact updateFields_mkStored d f
        | some r1 =>
          rw [upsertStep, if_neg hg, hl, lookupRec_updateRec_self hl] at hfound2
          rw [← Option.some_inj.mp hfound2]
          exact updateFields_updateFields r1 d d
      · rw [settle_cons_of_ne hd, settle, if_neg hg, lastOcc, hfil]
        rfl

theorem mem_prune_bound {st : Store} {now : Int} :
    ∀ e ∈ prune_store st now, now - RETENTION_DAYS * 86400 ≤ e.2.fetched_at := by
  intro e he
  have h2 := (List.mem_filter.mp he).2
  simp only [Bool.not_eq_true', decide_eq_false_iff_not] at h2
  omega

theorem prune_eq_self_of_bound {st : Store} {now : Int}
    (h : ∀ e ∈ st, now - RETENTION_DAYS * 86400 ≤ e.2.fetched_at) :
    prune_store st now = st := by
  rw [prune_store, List.filter_eq_self]
  intro e he
  have h2 := h e he
  simp only [Bool.not_eq_true', decide_eq_false_iff_not]
  omega

theorem upsertStep_fetched_bound {c f : Int} {st : Store}
    (hst : ∀ e ∈ st, c ≤ e.2.fetched_at) (hf : c ≤ f) (d : ItemData) :
    ∀ e ∈ upsertStep st d f, c ≤ e.2.fetched_at := by
  intro e he
  by_cases hg : d.guid = ""
  · rw [upsertStep_of_guid_empty hg] at he
    exact hst e he
  · cases hl : lookupRec st d.guid with
    | none =>
      rw [upsertStep, if_neg hg, hl] at he
      rcases List.mem_append.mp he with h1 | h1
      · exact hst e h1
      · have h2 : e = (d.guid, mkStored d f) := by simpa using h1
        rw [h2]
        exact hf
    | some r1 =>
      rw [upsertStep, if_neg hg, hl] at he
      rcases mem_updateRec he with h1 | h1
      · exact hst e h1
      · rw [h1]
        show c ≤ (updateFields r1 d).fetched_at
        rw [updateFields_fetched_at]
        exact hst (d.guid, r1) (lookupRec_mem hl)

theorem upsert_items_fetched_bound {c f : Int} (hf : c ≤ f) (items : List ItemData) :
    ∀ (st : Store), (∀ e ∈ st, c ≤ e.2.fetched_at) →
      ∀ e ∈ upsert_items st items f, c ≤ e.2.fetched_at := by
  induction items with
  | nil => intro st hst; exact hst
  | cons d rest ih => intro st hst; exact ih _ (upsertStep_fetched_bound hst hf d)

theorem keysNodup_prune {st : Store} (hn : KeysNodup st) (now : Int) :
    KeysNodup (prune_store st now) :=
  List.Nodup.sublist ((List.filter_sublist st).map Prod.fst) hn

/-- C9: running prune-upsert-render twice against the same extracted items
at the same instant changes nothing the second time: the persisted store is
identical and the rendered channel agrees on title, link, description and
the item list - only lastBuildDate (the build instant) can differ.  The one
proviso is that the first run's upsert timestamp is within the retention
window of the run instant, which `main` guarantees by taking both from the
same clock moments apart. -/
theorem pipeline_idempotent (store0 : Store) (items : List ItemData)
    (now f1 f2 t1 t2 : Int) (hn : KeysNodup store0)
    (hf1 : now - RETENTION_DAYS * 86400 ≤ f1) :
    (run_once (run_once store0 items now f1 t1).1 items now f2 t2).1 =
      (run_once store0 items now f1 t1).1 ∧
    ((run_once (run_once store0 items now f1 t1).1 items now f2 t2).2).items =
      ((run_once store0 items now f1 t1).2).items ∧
    ((run_once (run_once store0 items now f1 t1).1 items now f2 t2).2).title =
      ((run_once store0 items now f1 t1).2).title ∧
    ((run_once (run_once store0 items now f1 t1).1 items now f2 t2).2).link =
      ((run_once store0 items now f1 t1).2).link ∧
    ((run_once (run_once store0 items now f1 t1).1 items now f2 t2).2).description =
      ((run_once store0 items now f1 t1).2).description := by
  have hstore :
      (run_once (run_once store0 items now f1 t1).1 items now f2 t2).1 =
        (run_once store0 items now f1 t1).1 := by
    show upsert_items
        (prune_store (upsert_items (prune_store store0 now) items f1) now) items f2 =
      upsert_items (prune_store store0 now) items f1
    have hb0 : ∀ e ∈ prune_store store0 now,
        now - RETENTION_DAYS * 86400 ≤ e.2.fetched_at := mem_prune_bound
    have hb1 : ∀ e ∈ upsert_items (prune_store store0 now) items f1,
        now - RETENTION_DAYS * 86400 ≤ e.2.fetched_at :=
      upsert_items_fetched_bound hf1 items _ hb0
    rw [prune_eq_self_of_bound hb1]
    have hn1 : KeysNodup (upsert_items (prune_store store0 now) items f1) :=
      keysNodup_upsert_items (keysNodup_prune hn now) items f1
    have hprov : ∀ d ∈ items, d.guid ≠ "" →
        (lookupRec (upsert_items (prune_store store0 now) items f1) d.guid).isSome :=
      fun d hd hg => upsert_items_provides hd hg _ f1
    rw [upsert_eq_applyAll items _ f2 hn1 hprov]
    have hfix : ∀ e ∈ upsert_items (prune_store store0 now) items f1,
        (e.1, settle items e.1 e.2) = e := by
      intro e he
      obtain ⟨g, r⟩ := e
      by_cases hg : g = ""
      · subst hg
        simp [settle]
      · have hl : lookupRec (upsert_items (prune_store store0 now) items f1) g =
            some r := mem_lookupRec_of_nodup hn1 he
        rw [upsert_settles items _ f1 g r hg hl]
    calc applyAll (upsert_items (prune_store store0 now) items f1) items
        = List.map id (upsert_items (prune_store store0 now) items f1) :=
          List.map_congr_left (fun e he => hfix e he)
      _ = upsert_items (prune_store store0 now) items f1 := List.map_id _
  refine ⟨hstore, ?_, rfl, rfl, rfl⟩
  show (build_rss (run_once (run_once store0 items now f1 t1).1 items now f2 t2).1 t2).items =
    (build_rss (run_once store0 items now f1 t1).1 t1).items
  rw [hstore]
  rfl

/-- Witness for C9 at a concrete store, item list and instants. -/
theorem pipeline_idempotent_w :
    (run_once (run_once [("a", recAged "a" 0)] [sampleItem] 0 0 0).1 [sampleItem] 0 5 9).1 =
      (run_once [("a", recAged "a" 0)] [sampleItem] 0 0 0).1 :=
  (pipeline_idempotent [("a", recAged "a" 0)] [sampleItem] 0 0 5 0 9
    (by rw [KeysNodup]; decide) (by decide)).1
